import Mathlib

/-!
Shallow embedding of the Buildora export / storage core.

The definitions below are translated from the repository's TypeScript
source: the data model of `src/types.ts`, the export and single-file
merge logic of `src/components/Export/ApkBuilder.tsx` (`exportProject`,
`processFolder`), the project storage helpers that live in the same
source bundle (`getProjects`, `saveProjects`, `duplicateProject`), and
the file-explorer child listing (`renderTree`).

JavaScript strings are modelled as Lean `String` (a wrapper around
`List Char`); the string primitives the code relies on
(`includes`, `replace` with a string or a simple regex, `split(',')`,
`startsWith`, the `[^a-zA-Z0-9-_\s]` character-class filter, `trim`)
are given explicit char-list implementations so every definition is
executable by the kernel.
-/

namespace Buildora

/-! ## Data model (`src/types.ts`) -/

/-- `FileLanguage` from `src/types.ts`. -/
inductive FileLanguage where
  | html | css | javascript | json | xml | php | image | font
deriving DecidableEq, Repr

/-- `File` from `src/types.ts`.  The optional `isDirectory` flag is
modelled as a `Bool` (`undefined` behaves as `false` in every use
site); the transient `isOpen` flag has no bearing on the modelled
operations and is omitted. -/
structure File where
  id : String
  name : String
  content : String
  language : FileLanguage
  parentId : String
  isDirectory : Bool := false
deriving DecidableEq, Repr

/-- `ProjectType` (the `type` field of `Project`). -/
inductive ProjectType where
  | html | php
deriving DecidableEq, Repr

/-- `Project` from `src/types.ts` (the optional `thumbnail` plays no
role in the modelled operations and is omitted). -/
structure Project where
  id : String
  name : String
  ptype : ProjectType
  lastModified : Nat
  files : List File
deriving DecidableEq, Repr

/-! ## Char-list string primitives

These model the JavaScript string operations the source uses.  All are
structurally recursive so concrete instances evaluate with `decide`. -/

/-- Index of the first occurrence of `pat` in `l` (JS `indexOf` /
the position found by `includes` and first-occurrence `replace`). -/
def firstIdx (pat : List Char) : List Char → Option Nat
  | [] => if pat.isEmpty then some 0 else none
  | c :: rest =>
    if pat.isPrefixOf (c :: rest) then some 0
    else (firstIdx pat rest).map (· + 1)

/-- JS `String.prototype.includes` for a plain pattern. -/
def containsSub (s pat : String) : Bool :=
  (firstIdx pat.data s.data).isSome

/-- ECMAScript `GetSubstitution` for a string replacement value with
no capture groups — the situation of every `replace` call in the
source (string search values, and the group-free regex `/<body/i`):
scanning left to right, `$$` yields `$`, `$&` the matched text,
`$` + backtick (`Char.ofNat 96`) the portion of the subject before
the match, `$` + apostrophe (`Char.ofNat 39`) the portion after it;
any other `$` sequence (including `$n` with no captures and a
trailing `$`) is passed through literally. -/
def getSubst (matched before after : List Char) : List Char → List Char
  | [] => []
  | c :: rest =>
    if c = '$' then
      match rest with
      | [] => ['$']
      | d :: t =>
        if d = '$' then '$' :: getSubst matched before after t
        else if d = '&' then matched ++ getSubst matched before after t
        else if d = Char.ofNat 96 then before ++ getSubst matched before after t
        else if d = Char.ofNat 39 then after ++ getSubst matched before after t
        else '$' :: d :: getSubst matched before after t
    else c :: getSubst matched before after rest

/-- JS `String.prototype.replace` with a plain-string pattern:
replace the first occurrence of `pat` by the `GetSubstitution`
expansion of `repl` (no occurrence leaves the string unchanged; the
matched text is `pat` itself). -/
def replaceFirst (s pat repl : String) : String :=
  match firstIdx pat.data s.data with
  | none => s
  | some i =>
    ⟨s.data.take i ++
      getSubst pat.data (s.data.take i) (s.data.drop (i + pat.data.length))
        repl.data ++
      s.data.drop (i + pat.data.length)⟩

/-- Index of the first case-insensitive occurrence of `pat` in `s`
(the match position of a `/pat/i` regex for a literal ASCII pattern). -/
def firstIdxCI (s pat : String) : Option Nat :=
  firstIdx (pat.data.map Char.toLower) (s.data.map Char.toLower)

/-- JS `String.prototype.replace` with a case-insensitive literal
regex `/pat/i` (no capture groups): the first case-insensitive
occurrence of `pat` is replaced by the `GetSubstitution` expansion of
`repl`; the matched text handed to the expansion is the actual slice
of `s` at the match position. -/
def replaceFirstCI (s pat repl : String) : String :=
  match firstIdxCI s pat with
  | none => s
  | some i =>
    ⟨s.data.take i ++
      getSubst ((s.data.drop i).take pat.data.length) (s.data.take i)
        (s.data.drop (i + pat.data.length)) repl.data ++
      s.data.drop (i + pat.data.length)⟩

/-- JS `String.prototype.startsWith`. -/
def beginsWith (s pat : String) : Bool :=
  pat.data.isPrefixOf s.data

/-- JS `String.prototype.split(',')` on char lists:
`splitCommaL "a,b"` is `["a","b"]`, a string without a comma yields a
one-element list. -/
def splitCommaL : List Char → List (List Char)
  | [] => [[]]
  | c :: rest =>
    let r := splitCommaL rest
    if c = ',' then [] :: r
    else
      match r with
      | [] => [[c]]
      | h :: t => (c :: h) :: t

/-- JS `String.prototype.split(',')`. -/
def splitComma (s : String) : List String :=
  (splitCommaL s.data).map fun l => ⟨l⟩

/-! ## Project-name sanitization (`ApkBuilder.tsx`, line 28)

`project.name.replace(/[^a-zA-Z0-9-_\s]/g, '').trim() || "Project"`. -/

/-- The characters matched by the ECMAScript `\s` class (WhiteSpace
and LineTerminator), which is also exactly the set removed at either
end by `String.prototype.trim`. -/
def jsSpace (c : Char) : Bool :=
  c = ' ' || c = '\t' || c = '\n' || c = '\r' ||
  c = Char.ofNat 0x0b || c = Char.ofNat 0x0c ||
  c = Char.ofNat 0xa0 || c = Char.ofNat 0x1680 ||
  (Char.ofNat 0x2000 ≤ c && c ≤ Char.ofNat 0x200a) ||
  c = Char.ofNat 0x2028 || c = Char.ofNat 0x2029 ||
  c = Char.ofNat 0x202f || c = Char.ofNat 0x205f ||
  c = Char.ofNat 0x3000 || c = Char.ofNat 0xfeff

/-- A character kept by `replace(/[^a-zA-Z0-9-_\s]/g, '')`: ASCII
letters and digits, `-`, `_`, and the `\s` class. -/
def keptChar (c : Char) : Bool :=
  c.isAlpha || c.isDigit || c = '-' || c = '_' || jsSpace c

/-- JS `String.prototype.trim` on char lists: remove leading and
trailing whitespace. -/
def trimL (l : List Char) : List Char :=
  ((l.dropWhile jsSpace).reverse.dropWhile jsSpace).reverse

/-- `safeProjectName` computation of `exportProject`:
strip every character outside `[a-zA-Z0-9-_\s]`, trim, and substitute
`"Project"` when the result is empty (the `|| "Project"` fallback). -/
def sanitizeName (s : String) : String :=
  let r := trimL (s.data.filter keptChar)
  if r.isEmpty then "Project" else ⟨r⟩

/-! ## Single-file merge (`ApkBuilder.tsx`, lines 33–83) -/

/-- `project.files.find(f => f.name === n)`. -/
def findByName (files : List File) (n : String) : Option File :=
  files.find? fun f => f.name = n

/-- The style block built at line 46. -/
def cssBlock (css : String) : String :=
  "<style>\n/* Injected from style.css */\n" ++ css ++ "\n</style>"

/-- CSS injection (lines 48–55): insert the style block before the
first `</head>`; failing that, replace the first case-insensitive
`<body` (regex `/<body/i`) by the block followed by a literal
lowercase `<body`; failing both, prepend the block. -/
def injectCss (css doc : String) : String :=
  let block := cssBlock css
  if containsSub doc "</head>" then
    replaceFirst doc "</head>" (block ++ "\n</head>")
  else if containsSub doc "<body" then
    replaceFirstCI doc "<body" (block ++ "\n<body")
  else block ++ "\n" ++ doc

/-- The script block built at line 67. -/
def jsBlock (name js : String) : String :=
  "<script>\n/* Injected from " ++ name ++ " */\n" ++ js ++ "\n</script>"

/-- JS injection (lines 69–74): insert the script block before the
first `</body>`, or append it after a newline when no `</body>`
occurs. -/
def injectJs (name js doc : String) : String :=
  if containsSub doc "</body>" then
    replaceFirst doc "</body>" (jsBlock name js ++ "\n</body>")
  else doc ++ "\n" ++ jsBlock name js

/-- Line 65: `project.files.find(f => f.name === 'script.js') ||
project.files.find(f => f.name === 'main.js')`. -/
def chooseJs (files : List File) : Option File :=
  match findByName files "script.js" with
  | some f => some f
  | none => findByName files "main.js"

/-- The only typed failure of the single-file merge (line 38 throws
when no `index.html` exists). -/
inductive MergeError where
  | missingEntryPoint
deriving DecidableEq, Repr

/-- The merge pipeline applied to the working document once the entry
point is found (lines 42–80).  `removeCssLink` and `removeJsTag`
abstract the two best-effort regex deletions of external references
(lines 59 and 77–79): no claim depends on their internals, so they
are explicit parameters of the embedding. -/
def mergeRest (removeCssLink : String → String)
    (removeJsTag : String → String → String)
    (files : List File) (start : String) : String :=
  let d1 := match findByName files "style.css" with
    | none => start
    | some cssFile => removeCssLink (injectCss cssFile.content start)
  match chooseJs files with
  | none => d1
  | some jsFile => removeJsTag jsFile.name (injectJs jsFile.name jsFile.content d1)

/-- The single-file merge (lines 36–80): find `index.html`, fail with
`missingEntryPoint` when absent, otherwise run the pipeline from its
content. -/
def mergeSingleFile (removeCssLink : String → String)
    (removeJsTag : String → String → String)
    (files : List File) : Except MergeError String :=
  match findByName files "index.html" with
  | none => .error .missingEntryPoint
  | some indexFile => .ok (mergeRest removeCssLink removeJsTag files indexFile.content)

/-! ## Archive model and standard export (`ApkBuilder.tsx`, lines 85–121) -/

/-- What is handed to JSZip for one file entry: plain text, or a
base64 payload written with `{ base64: true }` (so the stored bytes
are the base64 decoding of the payload). -/
inductive EntryData where
  | text (s : String)
  | base64 (payload : String)
deriving DecidableEq, Repr

/-- Line 90: `project.files.filter(f => f.parentId === parentId)` —
the child sequence the export traversal walks, in file-array order. -/
def exportChildren (files : List File) (parentId : String) : List File :=
  files.filter fun f => f.parentId = parentId

/-- `processFolder` (lines 89–117).  An archive is modelled as the
list of its file entries, each a path (list of folder names ending in
the file name) with its data.  The source recursion is unbounded (it
would diverge on a cyclic `parentId` chain), so the model takes a
fuel bound; all claims hold for every fuel. -/
def processFolder (files : List File) : Nat → String → List String →
    List (List String × EntryData)
  | 0, _, _ => []
  | fuel + 1, parentId, path =>
    (exportChildren files parentId).flatMap fun item =>
      if item.isDirectory then
        processFolder files fuel item.id (path ++ [item.name])
      else if (item.language = FileLanguage.image ||
               item.language = FileLanguage.font) &&
              beginsWith item.content "data:" then
        let parts := splitComma item.content
        if 1 < parts.length then
          [(path ++ [item.name], EntryData.base64 (parts.getD 1 ""))]
        else []
      else [(path ++ [item.name], EntryData.text item.content)]

/-- A leaf the traversal silently skips (lines 104–110): a binary
asset whose content carries the data-URI prefix but no comma. -/
def malformedAsset (f : File) : Bool :=
  !f.isDirectory &&
  (f.language = FileLanguage.image || f.language = FileLanguage.font) &&
  beginsWith f.content "data:" &&
  (splitComma f.content).length ≤ 1

/-- Standard export (line 120): traverse from `'root'` under the
sanitized project-name root folder. -/
def exportStandard (p : Project) (fuel : Nat) : List (List String × EntryData) :=
  processFolder p.files fuel "root" [sanitizeName p.name]

/-- Single-file export (lines 33–83): merge, then emit the single
entry `<sanitizedName>/index.html` (line 83). -/
def exportSingle (removeCssLink : String → String)
    (removeJsTag : String → String → String) (p : Project) :
    Except MergeError (List (List String × EntryData)) :=
  match mergeSingleFile removeCssLink removeJsTag p.files with
  | .error e => .error e
  | .ok doc => .ok [([sanitizeName p.name, "index.html"], EntryData.text doc)]

/-! ## Display child listing (`renderTree`, FileExplorer source, lines 217–224) -/

/-- The comparator passed to `items.sort` at lines 221–224, with
`localeCompare` abstracted as `lc` (its result is host-locale
dependent). -/
def renderCmp (lc : String → String → Int) (a b : File) : Int :=
  if a.isDirectory = b.isDirectory then lc a.name b.name
  else if a.isDirectory then -1 else 1

/-- The child sequence `renderTree` displays for one parent: the
`parentId` filter sorted by `renderCmp` (a stable sort, as
`Array.prototype.sort` is). -/
def renderChildren (lc : String → String → Int) (files : List File)
    (parentId : String) : List File :=
  (files.filter fun f => f.parentId = parentId).mergeSort
    fun a b => renderCmp lc a b ≤ 0

/-! ## Persisted project storage (storage helpers in the source bundle) -/

/-- `getProjects` : `cell` models `localStorage.getItem(STORAGE_KEY)`
(`none` = no value stored) and `parse` models `JSON.parse` returning
a project list, `none` meaning the parse throws — the `try/catch`
turns that into `[]`.  An empty stored string is falsy, so
`data ? JSON.parse(data) : []` yields `[]` without parsing. -/
def getProjects (parse : String → Option (List Project))
    (cell : Option String) : List Project :=
  match cell with
  | none => []
  | some data => if data = "" then [] else (parse data).getD []

/-- `duplicateProject`, modelled over the parsed project list (the
`JSON.parse(JSON.stringify(...))` deep copy is the identity on the
value).  `genProjectId` models the `Date.now().toString()` id, `now`
the `Date.now()` timestamp, and `genFileId i` the
`Date.now().toString() + Math.random().toString().slice(2)` id drawn
for the `i`-th file.  The second component is the project list in the
store afterwards: unchanged when the id is not found (no
`saveProjects` call), otherwise the unshifted list that is saved.
Note the copied files keep their original `parentId` values — only
`id` is regenerated. -/
def duplicateProject (genProjectId : String) (now : Nat)
    (genFileId : Nat → String) (projects : List Project) (id : String) :
    Option Project × List Project :=
  match projects.find? fun p => p.id = id with
  | none => (none, projects)
  | some original =>
    let newProject : Project :=
      { original with
        id := genProjectId
        name := original.name ++ " Copy"
        lastModified := now
        files := original.files.enum.map fun x => { x.2 with id := genFileId x.1 } }
    (some newProject, newProject :: projects)

/-! ## Definitions written from the spec's words

These follow the specification text (not the source) and exist only
to be compared with the source-derived definitions above. -/

/-- Case-sensitive ordinal (code-point) lexicographic order on char
lists, as the spec's "lexicographic by name (case-sensitive ordinal
compare)" prescribes. -/
def ordLe : List Char → List Char → Bool
  | [], _ => true
  | _ :: _, [] => false
  | c :: cs, d :: ds => if c = d then ordLe cs ds else c < d

/-- The spec's child order: directories before files, then ordinal by
name. -/
def specChildLe (a b : File) : Bool :=
  if a.isDirectory = b.isDirectory then ordLe a.name.data b.name.data
  else a.isDirectory

/-- Insertion step of the executable sort used for `specListChildren`. -/
def insertSorted (le : File → File → Bool) (x : File) : List File → List File
  | [] => [x]
  | y :: ys => if le x y then x :: y :: ys else y :: insertSorted le x ys

/-- Executable insertion sort for `specListChildren`. -/
def sortBySpec (le : File → File → Bool) : List File → List File
  | [] => []
  | x :: xs => insertSorted le x (sortBySpec le xs)

/-- Modelled from the spec: `listChildren(parentId)` — the files with
the given `parentId`, directories before files, then lexicographic by
name under a case-sensitive ordinal compare. -/
def specListChildren (files : List File) (parentId : String) : List File :=
  sortBySpec specChildLe (files.filter fun f => f.parentId = parentId)

/-- Modelled from the spec: "the content's remainder after the first
comma" (the whole string when no comma occurs). -/
def remainderAfterFirstComma (s : String) : String :=
  match firstIdx [','] s.data with
  | none => s
  | some i => ⟨s.data.drop (i + 1)⟩

/-- `pat` occurs in `s` at position `i` and at no earlier position. -/
def occursFirstAt (pat s : String) (i : Nat) : Prop :=
  pat.data.isPrefixOf (s.data.drop i) = true ∧
  ∀ j, j < i → ¬ pat.data.isPrefixOf (s.data.drop j) = true

/-- `pat` occurs case-insensitively in `s` at position `i` and at no
earlier position. -/
def occursFirstAtCI (pat s : String) (i : Nat) : Prop :=
  (pat.data.map Char.toLower).isPrefixOf ((s.data.map Char.toLower).drop i) = true ∧
  ∀ j, j < i →
    ¬ (pat.data.map Char.toLower).isPrefixOf ((s.data.map Char.toLower).drop j) = true

/-! ## Helper lemmas -/

theorem dropWhile_head? {α : Type} (p : α → Bool) :
    ∀ (l : List α) (c : α), (l.dropWhile p).head? = some c → p c = false := by
  intro l
  induction l with
  | nil => intro c h; simp at h
  | cons x xs ih =>
    intro c h
    rw [List.dropWhile_cons] at h
    by_cases hp : p x = true
    · rw [if_pos hp] at h; exact ih c h
    · rw [if_neg hp] at h
      simp only [List.head?_cons, Option.some.injEq] at h
      subst h
      simpa using hp

theorem dropWhile_eq_self {α : Type} {p : α → Bool} {l : List α}
    (h : ∀ c, l.head? = some c → p c = false) : l.dropWhile p = l := by
  cases l with
  | nil => rfl
  | cons x xs =>
    rw [List.dropWhile_cons, if_neg]
    simp [h x rfl]

theorem dropWhile_idem {α : Type} (p : α → Bool) (l : List α) :
    (l.dropWhile p).dropWhile p = l.dropWhile p :=
  dropWhile_eq_self fun c h => dropWhile_head? p l c h

theorem getLast?_dropWhile {α : Type} {p : α → Bool} {l : List α}
    (h : l.dropWhile p ≠ []) : (l.dropWhile p).getLast? = l.getLast? := by
  obtain ⟨t, ht⟩ := @List.dropWhile_suffix _ l p
  conv_rhs => rw [← ht]
  rw [List.getLast?_append]
  obtain ⟨a, ha⟩ := Option.isSome_iff_exists.mp (List.getLast?_isSome.mpr h)
  rw [ha]
  rfl

theorem trimL_sublist (l : List Char) : (trimL l).Sublist l := by
  unfold trimL
  have h1 : (l.dropWhile jsSpace).Sublist l := (List.dropWhile_suffix _).sublist
  have h2 : ((l.dropWhile jsSpace).reverse.dropWhile jsSpace).Sublist
      (l.dropWhile jsSpace).reverse := (List.dropWhile_suffix _).sublist
  have h3 := h2.reverse
  rw [List.reverse_reverse] at h3
  exact h3.trans h1

theorem trimL_idem (l : List Char) : trimL (trimL l) = trimL l := by
  unfold trimL
  have hx : ((l.dropWhile jsSpace).reverse.dropWhile jsSpace).reverse.dropWhile jsSpace =
      ((l.dropWhile jsSpace).reverse.dropWhile jsSpace).reverse := by
    apply dropWhile_eq_self
    intro c hc
    rw [List.head?_reverse] at hc
    have hne : (l.dropWhile jsSpace).reverse.dropWhile jsSpace ≠ [] := by
      intro he
      rw [he] at hc
      simp at hc
    rw [getLast?_dropWhile hne, List.getLast?_reverse] at hc
    exact dropWhile_head? jsSpace _ c hc
  rw [hx, List.reverse_reverse, dropWhile_idem]

theorem keptChar_of_mem_trim {l : List Char} {c : Char}
    (h : c ∈ trimL (l.filter keptChar)) : keptChar c = true :=
  List.of_mem_filter (List.Sublist.mem h (trimL_sublist _))

theorem firstIdx_isPrefixOf {pat : List Char} :
    ∀ {l : List Char} {i : Nat}, firstIdx pat l = some i →
      pat.isPrefixOf (l.drop i) = true := by
  intro l
  induction l with
  | nil =>
    intro i h
    unfold firstIdx at h
    by_cases hp : pat.isEmpty = true
    · rw [if_pos hp] at h
      injection h with h
      subst h
      rw [List.isEmpty_iff.mp hp]
      rfl
    · rw [if_neg hp] at h
      exact absurd h (by simp)
  | cons c rest ih =>
    intro i h
    unfold firstIdx at h
    by_cases hp : pat.isPrefixOf (c :: rest) = true
    · rw [if_pos hp] at h
      injection h with h
      subst h
      exact hp
    · rw [if_neg hp] at h
      obtain ⟨i', hi', hsum⟩ := Option.map_eq_some'.mp h
      subst hsum
      exact ih hi'

theorem firstIdx_min {pat : List Char} :
    ∀ {l : List Char} {i : Nat}, firstIdx pat l = some i →
      ∀ j, j < i → pat.isPrefixOf (l.drop j) = false := by
  intro l
  induction l with
  | nil =>
    intro i h j hj
    unfold firstIdx at h
    by_cases hp : pat.isEmpty = true
    · rw [if_pos hp] at h
      injection h with h
      omega
    · rw [if_neg hp] at h
      exact absurd h (by simp)
  | cons c rest ih =>
    intro i h j hj
    unfold firstIdx at h
    by_cases hp : pat.isPrefixOf (c :: rest) = true
    · rw [if_pos hp] at h
      injection h with h
      omega
    · rw [if_neg hp] at h
      obtain ⟨i', hi', hsum⟩ := Option.map_eq_some'.mp h
      subst hsum
      cases j with
      | zero => exact Bool.eq_false_iff.mpr hp
      | succ j' => exact ih hi' j' (by omega)

theorem firstIdx_none {pat : List Char} :
    ∀ {l : List Char}, firstIdx pat l = none →
      ∀ j, pat.isPrefixOf (l.drop j) = false := by
  intro l
  induction l with
  | nil =>
    intro h j
    unfold firstIdx at h
    by_cases hp : pat.isEmpty = true
    · rw [if_pos hp] at h
      exact absurd h (by simp)
    · rw [List.drop_nil]
      cases pat with
      | nil => simp at hp
      | cons a as => rfl
  | cons c rest ih =>
    intro h j
    unfold firstIdx at h
    by_cases hp : pat.isPrefixOf (c :: rest) = true
    · rw [if_pos hp] at h
      exact absurd h (by simp)
    · rw [if_neg hp] at h
      cases j with
      | zero => exact Bool.eq_false_iff.mpr hp
      | succ j' =>
        exact ih (by simpa using h) j'

theorem occursFirstAt_of_firstIdx {pat s : String} {i : Nat}
    (h : firstIdx pat.data s.data = some i) : occursFirstAt pat s i :=
  ⟨firstIdx_isPrefixOf h, fun j hj => by rw [firstIdx_min h j hj]; simp⟩

theorem occursFirstAtCI_of_firstIdxCI {pat s : String} {i : Nat}
    (h : firstIdxCI s pat = some i) : occursFirstAtCI pat s i := by
  unfold firstIdxCI at h
  exact ⟨firstIdx_isPrefixOf h, fun j hj => by rw [firstIdx_min h j hj]; simp⟩

theorem drop_of_firstIdx {pat l : List Char} {i : Nat}
    (h : firstIdx pat l = some i) :
    l.drop i = pat ++ l.drop (i + pat.length) := by
  have hp := firstIdx_isPrefixOf h
  rw [List.isPrefixOf_iff_prefix] at hp
  obtain ⟨t, ht⟩ := hp
  have hdrop : t = l.drop (i + pat.length) := by
    have h2 := congrArg (List.drop pat.length) ht
    rw [List.drop_left, List.drop_drop] at h2
    rw [← h2]
  rw [← ht, hdrop]

theorem getSubst_of_not_mem (matched before after : List Char) :
    ∀ l : List Char, '$' ∉ l → getSubst matched before after l = l := by
  intro l
  induction l with
  | nil => intro _; rfl
  | cons c rest ih =>
    intro h
    have hc : ¬ c = '$' := fun he => h (by rw [he]; exact List.mem_cons_self _ _)
    have hrest : '$' ∉ rest := fun hm => h (List.mem_cons_of_mem _ hm)
    unfold getSubst
    rw [if_neg hc, ih hrest]

theorem replaceFirst_insert {s pat repl : String} {bd : List Char} {i : Nat}
    (h : firstIdx pat.data s.data = some i)
    (hnd : '$' ∉ repl.data)
    (hr : repl.data = bd ++ pat.data) :
    (replaceFirst s pat repl).data = s.data.take i ++ bd ++ s.data.drop i := by
  simp only [replaceFirst, h]
  rw [getSubst_of_not_mem _ _ _ _ hnd, hr]
  conv_rhs => rw [drop_of_firstIdx h]
  simp [List.append_assoc]

theorem replaceFirstCI_eq {s pat repl : String} {i : Nat}
    (h : firstIdxCI s pat = some i)
    (hnd : '$' ∉ repl.data) :
    (replaceFirstCI s pat repl).data =
      s.data.take i ++ repl.data ++ s.data.drop (i + pat.data.length) := by
  simp only [replaceFirstCI, h]
  rw [getSubst_of_not_mem _ _ _ _ hnd]

theorem not_mem_data_append {c : Char} {a b : String}
    (ha : c ∉ a.data) (hb : c ∉ b.data) : c ∉ (a ++ b).data := by
  rw [String.data_append]
  intro hm
  rcases List.mem_append.mp hm with h | h
  · exact ha h
  · exact hb h

theorem findByName_eq_none {files : List File} {n : String} :
    findByName files n = none ↔ ∀ f ∈ files, f.name ≠ n := by
  unfold findByName
  rw [List.find?_eq_none]
  simp

theorem findByName_mem_name {files : List File} {n : String} {f : File}
    (h : findByName files n = some f) : f ∈ files ∧ f.name = n :=
  ⟨List.mem_of_find?_eq_some h, by simpa using List.find?_some h⟩

/-! ## Claim theorems -/

/-- C5 (amended): in the CSS injection, for css content free of the
dollar sign (so the replacement contains no ECMAScript substitution
pattern — with a `$&`, `$\x27` or backtick pattern in the content
the program inserts its `GetSubstitution` expansion instead), with
`</head>` present the style block and a newline are inserted
immediately before its first occurrence and the rest of the document
is unchanged; with no `</head>` but a case-sensitive `<body` present,
the block, a newline and a literal lowercase `<body` replace the
first case-insensitive occurrence of `<body` (insertion happens at
the first case-insensitive match and the matched tag is normalized
to lowercase); with neither, the block is prepended by plain
concatenation, verbatim for every content. -/
theorem injectCss_cases (css doc : String) (hcss : '$' ∉ css.data) :
    (∀ i, firstIdx ("</head>".data) doc.data = some i →
      occursFirstAt "</head>" doc i ∧
      (injectCss css doc).data =
        doc.data.take i ++ (cssBlock css).data ++ '\n' :: doc.data.drop i) ∧
    (firstIdx ("</head>".data) doc.data = none →
      containsSub doc "<body" = true →
      ∀ i, firstIdxCI doc "<body" = some i →
        occursFirstAtCI "<body" doc i ∧
        (injectCss css doc).data =
          doc.data.take i ++ (cssBlock css).data ++
            '\n' :: ("<body".data ++ doc.data.drop (i + 5))) ∧
    (firstIdx ("</head>".data) doc.data = none →
      containsSub doc "<body" = false →
      (injectCss css doc).data = (cssBlock css).data ++ '\n' :: doc.data) := by
  refine ⟨fun i h => ?_, fun hnone hbody i h => ?_, fun hnone hbody => ?_⟩
  · have hc : containsSub doc "</head>" = true := by simp [containsSub, h]
    refine ⟨occursFirstAt_of_firstIdx h, ?_⟩
    have hstep : injectCss css doc =
        replaceFirst doc "</head>" (cssBlock css ++ "\n</head>") := by
      unfold injectCss
      rw [if_pos hc]
    have hr : (cssBlock css ++ "\n</head>").data =
        ((cssBlock css).data ++ ['\n']) ++ "</head>".data := by
      rw [String.data_append,
        show ("\n</head>" : String).data = '\n' :: "</head>".data by decide]
      simp
    have hblock : '$' ∉ (cssBlock css).data := by
      unfold cssBlock
      exact not_mem_data_append (not_mem_data_append (by decide) hcss) (by decide)
    have hnd : '$' ∉ (cssBlock css ++ "\n</head>").data :=
      not_mem_data_append hblock (by decide)
    rw [hstep, replaceFirst_insert h hnd hr]
    simp [List.append_assoc]
  · have hc : containsSub doc "</head>" = false := by simp [containsSub, hnone]
    refine ⟨occursFirstAtCI_of_firstIdxCI h, ?_⟩
    have hstep : injectCss css doc =
        replaceFirstCI doc "<body" (cssBlock css ++ "\n<body") := by
      unfold injectCss
      rw [if_neg (by simp [hc]), if_pos hbody]
    have hblock : '$' ∉ (cssBlock css).data := by
      unfold cssBlock
      exact not_mem_data_append (not_mem_data_append (by decide) hcss) (by decide)
    have hnd : '$' ∉ (cssBlock css ++ "\n<body").data :=
      not_mem_data_append hblock (by decide)
    rw [hstep, replaceFirstCI_eq h hnd,
      show ("<body" : String).data.length = 5 by decide,
      String.data_append,
      show ("\n<body" : String).data = '\n' :: "<body".data by decide]
    simp [List.append_assoc]
  · have hc : containsSub doc "</head>" = false := by simp [containsSub, hnone]
    unfold injectCss
    rw [if_neg (by simp [hc]), if_neg (by simp [hbody]),
      String.data_append, String.data_append,
      show ("\n" : String).data = ['\n'] by decide]
    simp

/-- Witness for C5 at three concrete documents, one per branch. -/
theorem injectCss_cases_witness :
    (injectCss "c" "<head></head>").data =
      "<head></head>".data.take 6 ++ (cssBlock "c").data ++
        '\n' :: "<head></head>".data.drop 6 ∧
    (injectCss "c" "x<body>").data =
      "x<body>".data.take 1 ++ (cssBlock "c").data ++
        '\n' :: ("<body".data ++ "x<body>".data.drop (1 + 5)) ∧
    (injectCss "c" "q").data = (cssBlock "c").data ++ '\n' :: "q".data :=
  ⟨((injectCss_cases "c" "<head></head>" (by decide)).1 6 (by decide)).2,
   ((injectCss_cases "c" "x<body>" (by decide)).2.1 (by decide) (by decide)
     1 (by decide)).2,
   (injectCss_cases "c" "q" (by decide)).2.2 (by decide) (by decide)⟩

/-- C5 counterexample: on the document `"<Body><body>"` (no
`</head>`; the case-sensitive `<body` occurs first at index 6), the
claim requires insertion immediately before index 6 with the rest of
the text unchanged, yet the code inserts at index 0 — the first
case-insensitive match — and rewrites `<Body` to `<body`, so the
original text `<Body` survives nowhere in the output. -/
theorem injectCss_body_case_counterexample :
    containsSub "<Body><body>" "<body" = true ∧
    injectCss "x" "<Body><body>" =
      "<style>\n/* Injected from style.css */\nx\n</style>\n<body><body>" ∧
    containsSub
      "<style>\n/* Injected from style.css */\nx\n</style>\n<body><body>"
      "<Body" = false := by
  decide

/-- C6 (amended): the script source is `script.js` when present (so
`main.js` is never used then), otherwise `main.js`; for a chosen
name and content free of the dollar sign (so the replacement carries
no ECMAScript substitution pattern — with a `$&`, `$\x27` or
backtick pattern in the content the program inserts its
`GetSubstitution` expansion instead), the script block and a newline
are inserted immediately before the first `</body>` with the rest of
the document unchanged; with no `</body>` the block is appended
after a newline by plain concatenation, verbatim for every
content. -/
theorem injectJs_cases (files : List File) (name js doc : String)
    (hname : '$' ∉ name.data) (hjs : '$' ∉ js.data) :
    (∀ f, findByName files "script.js" = some f → chooseJs files = some f) ∧
    (findByName files "script.js" = none →
      chooseJs files = findByName files "main.js") ∧
    (∀ i, firstIdx ("</body>".data) doc.data = some i →
      occursFirstAt "</body>" doc i ∧
      (injectJs name js doc).data =
        doc.data.take i ++ (jsBlock name js).data ++ '\n' :: doc.data.drop i) ∧
    (firstIdx ("</body>".data) doc.data = none →
      injectJs name js doc = doc ++ "\n" ++ jsBlock name js) := by
  refine ⟨fun f h => ?_, fun h => ?_, fun i h => ?_, fun h => ?_⟩
  · unfold chooseJs
    rw [h]
  · unfold chooseJs
    rw [h]
  · have hc : containsSub doc "</body>" = true := by simp [containsSub, h]
    refine ⟨occursFirstAt_of_firstIdx h, ?_⟩
    have hstep : injectJs name js doc =
        replaceFirst doc "</body>" (jsBlock name js ++ "\n</body>") := by
      unfold injectJs
      rw [if_pos hc]
    have hr : (jsBlock name js ++ "\n</body>").data =
        ((jsBlock name js).data ++ ['\n']) ++ "</body>".data := by
      rw [String.data_append,
        show ("\n</body>" : String).data = '\n' :: "</body>".data by decide]
      simp
    have hblock : '$' ∉ (jsBlock name js).data := by
      unfold jsBlock
      exact not_mem_data_append
        (not_mem_data_append
          (not_mem_data_append (not_mem_data_append (by decide) hname)
            (by decide)) hjs)
        (by decide)
    have hnd : '$' ∉ (jsBlock name js ++ "\n</body>").data :=
      not_mem_data_append hblock (by decide)
    rw [hstep, replaceFirst_insert h hnd hr]
    simp [List.append_assoc]
  · have hc : containsSub doc "</body>" = false := by simp [containsSub, h]
    unfold injectJs
    rw [if_neg (by simp [hc])]

/-- Witness for C6 at concrete inputs: fallback selection, insertion
before `</body>`, and the append case. -/
theorem injectJs_cases_witness :
    chooseJs [] = findByName [] "main.js" ∧
    (injectJs "s" "j" "<html></body>").data =
      "<html></body>".data.take 6 ++ (jsBlock "s" "j").data ++
        '\n' :: "<html></body>".data.drop 6 ∧
    injectJs "s" "j" "q" = "q" ++ "\n" ++ jsBlock "s" "j" :=
  ⟨(injectJs_cases [] "s" "j" "q" (by decide) (by decide)).2.1 rfl,
   ((injectJs_cases [] "s" "j" "<html></body>" (by decide)
     (by decide)).2.2.1 6 (by decide)).2,
   (injectJs_cases [] "s" "j" "q" (by decide) (by decide)).2.2.2 (by decide)⟩

/-- C6 counterexample: for script content `"$&"` with a `</body>`
present, the program expands `$&` to the matched `</body>` inside
the replacement (ECMAScript `GetSubstitution`), so the inserted text
is not the content wrapped in a script block: the output block
contains `</body>` where the content had `$&`. -/
theorem injectJs_subst_counterexample :
    injectJs "script.js" "$&" "<p></body>" =
      "<p><script>\n/* Injected from script.js */\n</body>\n</script>\n</body>" ∧
    "<p><script>\n/* Injected from script.js */\n</body>\n</script>\n</body>" ≠
      "<p>" ++ jsBlock "script.js" "$&" ++ "\n</body>" := by
  decide

/-- C7: for every project accepted by the single-file merge (one
containing an `index.html`), the archive holds exactly one file
entry, the merged `index.html` under the sanitized project-name root
folder, whatever else the tree contains. -/
theorem exportSingle_single_entry (rc : String → String)
    (rj : String → String → String) (p : Project)
    (h : ∃ f ∈ p.files, f.name = "index.html") :
    ∃ doc, exportSingle rc rj p =
      .ok [([sanitizeName p.name, "index.html"], EntryData.text doc)] := by
  obtain ⟨f, hf, hn⟩ := h
  cases hfind : findByName p.files "index.html" with
  | none => exact absurd hn (findByName_eq_none.mp hfind f hf)
  | some g =>
    exact ⟨mergeRest rc rj p.files g.content,
      by simp [exportSingle, mergeSingleFile, hfind]⟩

/-- Witness for C7: a two-file project (with an extra `style.css` in
the tree) exports to the single merged entry. -/
theorem exportSingle_single_entry_witness :
    ∃ doc, exportSingle (fun d => d) (fun _ d => d)
        (Project.mk "1" "My App" ProjectType.html 0
          [File.mk "1" "index.html" "<p>hi</p>" FileLanguage.html "root" false,
           File.mk "2" "style.css" "p \x7b \x7d" FileLanguage.css "root" false]) =
      .ok [([sanitizeName "My App", "index.html"], EntryData.text doc)] :=
  exportSingle_single_entry (fun d => d) (fun _ d => d)
    (Project.mk "1" "My App" ProjectType.html 0
      [File.mk "1" "index.html" "<p>hi</p>" FileLanguage.html "root" false,
       File.mk "2" "style.css" "p \x7b \x7d" FileLanguage.css "root" false])
    ⟨File.mk "1" "index.html" "<p>hi</p>" FileLanguage.html "root" false,
      by simp, rfl⟩

/-- C8: the project-name sanitization (strip every character outside
`[A-Za-z0-9-_\s]`, trim, substitute `"Project"` when empty) is
idempotent: sanitizing an already-sanitized name yields the same
string. -/
theorem sanitizeName_idem (s : String) :
    sanitizeName (sanitizeName s) = sanitizeName s := by
  by_cases h : (trimL (s.data.filter keptChar)).isEmpty = true
  · have hs : sanitizeName s = "Project" := by
      unfold sanitizeName
      rw [if_pos h]
    rw [hs]
    decide
  · have hs : sanitizeName s = ⟨trimL (s.data.filter keptChar)⟩ := by
      unfold sanitizeName
      rw [if_neg h]
    rw [hs]
    unfold sanitizeName
    have hfil : (trimL (s.data.filter keptChar)).filter keptChar =
        trimL (s.data.filter keptChar) :=
      List.filter_eq_self.mpr fun a ha => keptChar_of_mem_trim ha
    rw [show (String.mk (trimL (s.data.filter keptChar))).data =
        trimL (s.data.filter keptChar) from rfl, hfil, trimL_idem, if_neg h]

/-- C4: the single-file merge fails with `missingEntryPoint` exactly
when no file of the project is named `index.html` (the `parentId`
never matters), and when one exists the merge proceeds from the
content of a file of that name (the first such file). -/
theorem mergeSingleFile_entry_spec (rc : String → String)
    (rj : String → String → String) (files : List File) :
    (mergeSingleFile rc rj files = .error .missingEntryPoint ↔
      ∀ f ∈ files, f.name ≠ "index.html") ∧
    ((∃ f ∈ files, f.name = "index.html") →
      ∃ g, g ∈ files ∧ g.name = "index.html" ∧
        mergeSingleFile rc rj files = .ok (mergeRest rc rj files g.content)) := by
  cases h : findByName files "index.html" with
  | none =>
    constructor
    · exact ⟨fun _ => findByName_eq_none.mp h, fun _ => by simp [mergeSingleFile, h]⟩
    · rintro ⟨f, hf, hn⟩
      exact absurd hn (findByName_eq_none.mp h f hf)
  | some g =>
    have hg := findByName_mem_name h
    constructor
    · constructor
      · intro heq
        simp [mergeSingleFile, h] at heq
      · intro hall
        exact absurd hg.2 (hall g hg.1)
    · intro _
      exact ⟨g, hg.1, hg.2, by simp [mergeSingleFile, h]⟩

/-- Witness for C4 at concrete inputs: an empty project fails with
`missingEntryPoint`; a one-file project with `index.html` merges. -/
theorem mergeSingleFile_entry_spec_witness :
    mergeSingleFile (fun d => d) (fun _ d => d) [] =
      .error .missingEntryPoint ∧
    ∃ g, g ∈ [File.mk "1" "index.html" "<p>hi</p>" FileLanguage.html "root" false] ∧
      g.name = "index.html" ∧
      mergeSingleFile (fun d => d) (fun _ d => d)
          [File.mk "1" "index.html" "<p>hi</p>" FileLanguage.html "root" false] =
        .ok (mergeRest (fun d => d) (fun _ d => d)
          [File.mk "1" "index.html" "<p>hi</p>" FileLanguage.html "root" false]
          g.content) :=
  ⟨(mergeSingleFile_entry_spec (fun d => d) (fun _ d => d) []).1.mpr (by simp),
   (mergeSingleFile_entry_spec (fun d => d) (fun _ d => d)
      [File.mk "1" "index.html" "<p>hi</p>" FileLanguage.html "root" false]).2
    ⟨File.mk "1" "index.html" "<p>hi</p>" FileLanguage.html "root" false,
      by simp, rfl⟩⟩

/-- C9: when the requested id matches no stored project,
`duplicateProject` returns `none` and the persisted project list is
exactly what it was (no `saveProjects` call happens). -/
theorem duplicateProject_missing_id (genP : String) (now : Nat)
    (genF : Nat → String) (projects : List Project) (id : String)
    (h : ∀ p ∈ projects, p.id ≠ id) :
    duplicateProject genP now genF projects id = (none, projects) := by
  unfold duplicateProject
  rw [List.find?_eq_none.mpr (by simpa using h)]

/-- Witness for C9: duplicating a missing id in a one-project store. -/
theorem duplicateProject_missing_id_witness :
    duplicateProject "9" 5 (fun _ => "z")
        [Project.mk "a" "App" ProjectType.html 0 []] "b" =
      (none, [Project.mk "a" "App" ProjectType.html 0 []]) :=
  duplicateProject_missing_id "9" 5 (fun _ => "z")
    [Project.mk "a" "App" ProjectType.html 0 []] "b" (by decide)

/-- C10: `getProjects` never throws — it is total on every store
state — returning the parsed list when the stored value parses, and
`[]` both when nothing is stored and when parsing fails (the model
needs only that the empty string is not valid JSON). -/
theorem getProjects_total_spec (parse : String → Option (List Project))
    (hempty : parse "" = none) :
    getProjects parse none = [] ∧
    (∀ s, parse s = none → getProjects parse (some s) = []) ∧
    (∀ s ps, parse s = some ps → getProjects parse (some s) = ps) := by
  refine ⟨rfl, fun s hs => ?_, fun s ps hs => ?_⟩
  · by_cases he : s = ""
    · simp [getProjects, he]
    · simp [getProjects, he, hs]
  · by_cases he : s = ""
    · rw [he] at hs
      rw [hempty] at hs
      exact absurd hs (by simp)
    · simp [getProjects, he, hs]

/-- Witness for C10 with a concrete parse function. -/
theorem getProjects_total_spec_witness :
    getProjects (fun s => if s = "[]" then some [] else none) none = [] ∧
    getProjects (fun s => if s = "[]" then some [] else none) (some "[]") = [] :=
  ⟨(getProjects_total_spec (fun s => if s = "[]" then some [] else none)
      (by decide)).1,
   (getProjects_total_spec (fun s => if s = "[]" then some [] else none)
      (by decide)).2.2 "[]" [] (by decide)⟩

/-! ## Sort-order lemmas for the display listing (C2) -/

theorem renderCmp_le_total (lc : String → String → Int)
    (htot : ∀ x y, lc x y ≤ 0 ∨ lc y x ≤ 0) (a b : File) :
    renderCmp lc a b ≤ 0 ∨ renderCmp lc b a ≤ 0 := by
  by_cases hd : a.isDirectory = b.isDirectory
  · simp only [renderCmp, if_pos hd, if_pos hd.symm]
    exact htot _ _
  · cases ha : a.isDirectory
    · have hb : b.isDirectory = true := by
        cases hb : b.isDirectory
        · rw [ha, hb] at hd
          exact absurd rfl hd
        · rfl
      right
      simp [renderCmp, ha, hb]
    · left
      have hb : b.isDirectory = false := by
        cases hb : b.isDirectory
        · rfl
        · rw [ha, hb] at hd
          exact absurd rfl hd
      simp [renderCmp, ha, hb]

theorem renderCmp_le_trans (lc : String → String → Int)
    (htr : ∀ x y z, lc x y ≤ 0 → lc y z ≤ 0 → lc x z ≤ 0) (a b c : File)
    (h1 : renderCmp lc a b ≤ 0) (h2 : renderCmp lc b c ≤ 0) :
    renderCmp lc a c ≤ 0 := by
  cases ha : a.isDirectory <;> cases hb : b.isDirectory <;>
    cases hc : c.isDirectory <;>
    simp_all [renderCmp] <;>
    exact htr _ _ _ h1 h2

/-- C2 (amended): for a fixed tree and parent, the display listing
(`renderTree`) is a permutation of the files with that `parentId`,
pairwise ordered by its comparator — in particular every directory
precedes every non-directory — with names compared by the host's
`localeCompare` (any total preorder), not an ordinal compare; the
export traversal instead enumerates exactly the files with that
`parentId` in file-array order, with no sorting, so the two
enumerations need not coincide. -/
theorem childOrder_spec (lc : String → String → Int)
    (htot : ∀ x y, lc x y ≤ 0 ∨ lc y x ≤ 0)
    (htr : ∀ x y z, lc x y ≤ 0 → lc y z ≤ 0 → lc x z ≤ 0)
    (files : List File) (pid : String) :
    (renderChildren lc files pid).Perm
      (files.filter fun f => f.parentId = pid) ∧
    (renderChildren lc files pid).Pairwise
      (fun a b => renderCmp lc a b ≤ 0) ∧
    (renderChildren lc files pid).Pairwise
      (fun a b => b.isDirectory = true → a.isDirectory = true) ∧
    (exportChildren files pid).Sublist files ∧
    (∀ f, f ∈ exportChildren files pid ↔ f ∈ files ∧ f.parentId = pid) := by
  have hpair : (renderChildren lc files pid).Pairwise
      (fun a b => renderCmp lc a b ≤ 0) := by
    have hs := @List.sorted_mergeSort File
      (fun a b : File => decide (renderCmp lc a b ≤ 0))
      (fun a b c h1 h2 => decide_eq_true
        (renderCmp_le_trans lc htr a b c (of_decide_eq_true h1)
          (of_decide_eq_true h2)))
      (fun a b => by
        rcases renderCmp_le_total lc htot a b with h | h <;>
          simp [decide_eq_true h])
      (files.filter fun f => f.parentId = pid)
    exact hs.imp fun h => of_decide_eq_true h
  refine ⟨List.mergeSort_perm _ _, hpair, ?_, List.filter_sublist _, fun f => ?_⟩
  · refine hpair.imp fun {a b} h hb => ?_
    cases ha : a.isDirectory
    · rw [renderCmp, if_neg (by rw [ha, hb]; simp), if_neg (by rw [ha]; simp)] at h
      omega
    · rfl
  · simp [exportChildren, List.mem_filter]

/-- Witness for C2 with the constant comparator (a total preorder)
and a two-file tree. -/
theorem childOrder_spec_witness :
    (renderChildren (fun _ _ => (0 : Int))
        [File.mk "1" "b" "" FileLanguage.html "root" false,
         File.mk "2" "a" "" FileLanguage.css "root" true] "root").Perm
      ([File.mk "1" "b" "" FileLanguage.html "root" false,
        File.mk "2" "a" "" FileLanguage.css "root" true].filter
        fun f => f.parentId = "root") ∧
    (renderChildren (fun _ _ => (0 : Int))
        [File.mk "1" "b" "" FileLanguage.html "root" false,
         File.mk "2" "a" "" FileLanguage.css "root" true] "root").Pairwise
      (fun a b => renderCmp (fun _ _ => (0 : Int)) a b ≤ 0) ∧
    (renderChildren (fun _ _ => (0 : Int))
        [File.mk "1" "b" "" FileLanguage.html "root" false,
         File.mk "2" "a" "" FileLanguage.css "root" true] "root").Pairwise
      (fun a b => b.isDirectory = true → a.isDirectory = true) ∧
    (exportChildren
        [File.mk "1" "b" "" FileLanguage.html "root" false,
         File.mk "2" "a" "" FileLanguage.css "root" true] "root").Sublist
      [File.mk "1" "b" "" FileLanguage.html "root" false,
       File.mk "2" "a" "" FileLanguage.css "root" true] ∧
    (∀ f, f ∈ exportChildren
        [File.mk "1" "b" "" FileLanguage.html "root" false,
         File.mk "2" "a" "" FileLanguage.css "root" true] "root" ↔
      f ∈ [File.mk "1" "b" "" FileLanguage.html "root" false,
           File.mk "2" "a" "" FileLanguage.css "root" true] ∧
      f.parentId = "root") :=
  childOrder_spec (fun _ _ => (0 : Int))
    (fun _ _ => Or.inl (le_refl 0))
    (fun _ _ _ _ _ => le_refl 0)
    [File.mk "1" "b" "" FileLanguage.html "root" false,
     File.mk "2" "a" "" FileLanguage.css "root" true] "root"

/-- C2 counterexample: with two plain files stored as `b.txt` before
`a.txt`, the export traversal enumerates them in file-array order,
which differs from the spec's sorted `listChildren` order; the
archive-building traversal therefore does not follow the sorted
ordering the claim states. -/
theorem exportOrder_counterexample :
    exportChildren
        [File.mk "1" "b.txt" "" FileLanguage.html "root" false,
         File.mk "2" "a.txt" "" FileLanguage.html "root" false] "root" ≠
      specListChildren
        [File.mk "1" "b.txt" "" FileLanguage.html "root" false,
         File.mk "2" "a.txt" "" FileLanguage.html "root" false] "root" ∧
    (processFolder
        [File.mk "1" "b.txt" "" FileLanguage.html "root" false,
         File.mk "2" "a.txt" "" FileLanguage.html "root" false]
        1 "root" []).map Prod.fst = [["b.txt"], ["a.txt"]] := by
  decide

/-! ## Traversal lemmas for the standard export (C3) -/

theorem flatMap_filter_eq {α β : Type} (q : α → Bool) (g g' : α → List β)
    (h0 : ∀ a, q a = false → g a = [])
    (h1 : ∀ a, q a = true → g' a = g a) :
    ∀ l : List α, (l.filter q).flatMap g' = l.flatMap g := by
  intro l
  induction l with
  | nil => rfl
  | cons a t ih =>
    cases hq : q a
    · simp [List.filter_cons, hq, List.flatMap_cons, h0 a hq, ih]
    · simp [List.filter_cons, hq, List.flatMap_cons, h1 a hq, ih]

theorem processFolder_skip_malformed (files : List File) :
    ∀ fuel pid path,
      processFolder (files.filter fun f => !malformedAsset f) fuel pid path =
        processFolder files fuel pid path := by
  intro fuel
  induction fuel with
  | zero => intro pid path; rfl
  | succ n ih =>
    intro pid path
    show (exportChildren (files.filter fun f => !malformedAsset f) pid).flatMap _ =
      (exportChildren files pid).flatMap _
    have hcomm : exportChildren (files.filter fun f => !malformedAsset f) pid =
        (exportChildren files pid).filter fun f => !malformedAsset f := by
      unfold exportChildren
      rw [List.filter_filter, List.filter_filter]
      congr 1
      funext a
      rw [Bool.and_comm]
    rw [hcomm]
    apply flatMap_filter_eq
    · intro a hq
      have hm : malformedAsset a = true := by simpa using hq
      unfold malformedAsset at hm
      simp only [Bool.and_eq_true] at hm
      obtain ⟨⟨⟨hdir, hlang⟩, hbeg⟩, hlen⟩ := hm
      have hd : a.isDirectory = false := by simpa using hdir
      have hnlt : ¬ 1 < (splitComma a.content).length := by
        have := of_decide_eq_true hlen
        omega
      simp [hd, hlang, hbeg, hnlt]
    · intro a _
      by_cases hd : a.isDirectory = true
      · simp [hd, ih]
      · simp [hd]

/-- C3 (amended): a binary-kind leaf whose content starts with
`data:` and splits into more than one comma-separated segment is
archived as the base64 decoding of the *second* comma-separated
segment — the text strictly between the first and the second comma,
which is the remainder after the first comma exactly when the content
has a single comma; with no comma the entry is skipped and the
archive is the same as if the malformed leaves were absent; every
other leaf is written verbatim as text. -/
theorem processFolder_leaf_spec (files : List File) :
    (∀ fuel pid path item, item ∈ exportChildren files pid →
      item.isDirectory = false →
      (item.language = FileLanguage.image ∨ item.language = FileLanguage.font) →
      beginsWith item.content "data:" = true →
      1 < (splitComma item.content).length →
      (path ++ [item.name],
        EntryData.base64 ((splitComma item.content).getD 1 "")) ∈
        processFolder files (fuel + 1) pid path) ∧
    (∀ fuel pid path item, item ∈ exportChildren files pid →
      item.isDirectory = false →
      ¬((item.language = FileLanguage.image ∨
          item.language = FileLanguage.font) ∧
        beginsWith item.content "data:" = true) →
      (path ++ [item.name], EntryData.text item.content) ∈
        processFolder files (fuel + 1) pid path) ∧
    (∀ fuel pid path,
      processFolder (files.filter fun f => !malformedAsset f) fuel pid path =
        processFolder files fuel pid path) := by
  refine ⟨fun fuel pid path item hmem hdir hlang hbeg hlen => ?_,
    fun fuel pid path item hmem hdir hother => ?_,
    processFolder_skip_malformed files⟩
  · refine List.mem_flatMap.mpr ⟨item, hmem, ?_⟩
    have hl : (decide (item.language = FileLanguage.image) ||
        decide (item.language = FileLanguage.font)) = true := by
      rcases hlang with h | h <;> simp [h]
    simp [hdir, hl, hbeg, hlen]
  · refine List.mem_flatMap.mpr ⟨item, hmem, ?_⟩
    by_cases hl : (item.language = FileLanguage.image ∨
        item.language = FileLanguage.font)
    · have hb : beginsWith item.content "data:" = false := by
        cases hb : beginsWith item.content "data:"
        · rfl
        · exact absurd ⟨hl, hb⟩ hother
      simp [hdir, hb]
    · have hl' : (decide (item.language = FileLanguage.image) ||
          decide (item.language = FileLanguage.font)) = false := by
        push_neg at hl
        simp [hl.1, hl.2]
      simp [hdir, hl']

/-- Witness for C3: a well-formed data-URI font is archived from the
second segment, a text leaf verbatim, and filtering out malformed
leaves leaves the archive unchanged. -/
theorem processFolder_leaf_spec_witness :
    (["f.ttf"], EntryData.base64 "AA") ∈
      processFolder
        [File.mk "9" "f.ttf" "data:font/ttf;base64,AA" FileLanguage.font
          "root" false] 1 "root" [] ∧
    (["n.txt"], EntryData.text "hello") ∈
      processFolder
        [File.mk "8" "n.txt" "hello" FileLanguage.json "root" false]
        1 "root" [] ∧
    processFolder
        ([File.mk "7" "g.ttf" "data:font" FileLanguage.font "root"
            false].filter fun f => !malformedAsset f) 2 "root" [] =
      processFolder
        [File.mk "7" "g.ttf" "data:font" FileLanguage.font "root" false]
        2 "root" [] :=
  ⟨(processFolder_leaf_spec
      [File.mk "9" "f.ttf" "data:font/ttf;base64,AA" FileLanguage.font
        "root" false]).1 0 "root" []
      (File.mk "9" "f.ttf" "data:font/ttf;base64,AA" FileLanguage.font
        "root" false)
      (by decide) rfl (Or.inr rfl) (by decide) (by decide),
   (processFolder_leaf_spec
      [File.mk "8" "n.txt" "hello" FileLanguage.json "root" false]).2.1
      0 "root" []
      (File.mk "8" "n.txt" "hello" FileLanguage.json "root" false)
      (by decide) rfl (by decide),
   (processFolder_leaf_spec
      [File.mk "7" "g.ttf" "data:font" FileLanguage.font "root" false]).2.2
      2 "root" []⟩

/-- C3 counterexample: a font leaf whose data-URI payload contains a
second comma is archived from the segment between the first and
second commas (`"AA"`), not from the remainder after the first comma
(`"AA,BB"`) as the claim states. -/
theorem dataUri_second_segment_counterexample :
    processFolder
        [File.mk "9" "f.ttf" "data:font/ttf;base64,AA,BB" FileLanguage.font
          "root" false] 1 "root" [] =
      [(["f.ttf"], EntryData.base64 "AA")] ∧
    remainderAfterFirstComma "data:font/ttf;base64,AA,BB" = "AA,BB" ∧
    EntryData.base64 "AA" ≠
      EntryData.base64
        (remainderAfterFirstComma "data:font/ttf;base64,AA,BB") := by
  decide

/-- C1: evaluating `duplicateProject` on a project whose tree nests
`logo.png` inside the directory `assets` (id `d1`): every copied file
keeps its original `parentId`, so the copied child still points at
`d1`, which is the id of no file of the duplicate — the copied
parent's id is `n0` — refuting the claim that the copied pair again
satisfies `child'.parentId = parent'.id`. -/
theorem duplicateProject_breaks_nesting :
    ((duplicateProject "p2" 1 (fun i => if i = 0 then "n0" else "n1")
        [Project.mk "p1" "App" ProjectType.html 0
          [File.mk "d1" "assets" "" FileLanguage.html "root" true,
           File.mk "f1" "logo.png" "data:image/png;base64,AA"
             FileLanguage.image "d1" false]]
        "p1").1).map (fun q => q.files.map fun f => (f.id, f.parentId)) =
      some [("n0", "root"), ("n1", "d1")] ∧
    ¬("d1" = "n0" ∨ "d1" = "n1") := by
  decide

end Buildora
